import Mathlib

/-!
# Verification of the `usefix` conflict-merge tool

A shallow embedding of the core of the `usefix` repository:

* `src/gitfile.rs` — the line-oriented parser for files containing git
  conflict markers (`GitFile::from_file` / `parse_file` / `parse_conflict`);
* `src/write_file.rs` — the conflict-aware rewriter
  (`find_insert_point`, `write_conflict`, `write_corrected_file`);
* `src/flattened.rs` — visibility merging and config normalization
  (`merge_visibilities`, `add_properties`, `NormalizedUsedItems::add_tree`);
* `src/tree.rs` — `DocsList::combine`;
* `src/printable.rs` — the printable forest
  (`PrintableUseItems::add_single_used_item`, sort keys, rendering).

Strings are modelled as `List Char`; machine line numbers as `Nat`.
-/

namespace Usefix

/-- Text and lines are lists of characters. -/
abbrev Str := List Char

/-- Concatenate a list of strings. -/
def joinStrs (ls : List Str) : Str := ls.foldr (· ++ ·) []

@[simp] theorem joinStrs_nil : joinStrs [] = [] := rfl

@[simp] theorem joinStrs_cons (l : Str) (ls : List Str) :
    joinStrs (l :: ls) = l ++ joinStrs ls := rfl

theorem joinStrs_append (a b : List Str) :
    joinStrs (a ++ b) = joinStrs a ++ joinStrs b := by
  induction a with
  | nil => simp
  | cons x xs ih => simp [ih]

@[simp] theorem joinStrs_concat (a : List Str) (x : Str) :
    joinStrs (a ++ [x]) = joinStrs a ++ x := by
  simp [joinStrs_append]

/-! ## Splitting raw text into lines

`parse_any_line` in `gitfile.rs` consumes up to and including the first
newline (or the whole remaining input when it has no newline).  Iterating it
splits a text into lines, each line keeping its trailing `'\n'` except
possibly the last. -/

/-- Helper for `splitLines`: `acc` holds the characters of the current
(unfinished) line. -/
def splitLinesGo : Str → Str → List Str
  | [], acc => if acc.isEmpty then [] else [acc]
  | c :: cs, acc =>
      if c = '\n' then (acc ++ [c]) :: splitLinesGo cs []
      else splitLinesGo cs (acc ++ [c])

/-- Split a text into its lines, as `parse_any_line` iteration does. -/
def splitLines (t : Str) : List Str := splitLinesGo t []

theorem joinStrs_splitLinesGo (t acc : Str) :
    joinStrs (splitLinesGo t acc) = acc ++ t := by
  induction t generalizing acc with
  | nil =>
    by_cases h : acc.isEmpty
    · simp [splitLinesGo, h, List.isEmpty_iff.mp h]
    · simp [splitLinesGo, h]
  | cons c cs ih =>
    by_cases h : c = '\n'
    · simp [splitLinesGo, h, ih]
    · simp [splitLinesGo, h, ih]

/-- Joining the split lines gives back the original text. -/
theorem joinStrs_splitLines (t : Str) : joinStrs (splitLines t) = t :=
  joinStrs_splitLinesGo t []

/-! ## Marker lines

`parse_conflict_header` is `tag("<<<<<<<")` then `space0` then the rest of
the line; `parse_conflict_footer` likewise with `">>>>>>>"`; the separator is
exactly the line `"=======\n"` (`tag("=======\n")`). The branch name is the
rest of the marker line after `space0`, with trailing whitespace trimmed
(`trim_end`). -/

/-- `leadsWith pat s` : `pat` is a leading run of `s` (nom's `tag`). -/
def leadsWith : Str → Str → Bool
  | [], _ => true
  | _ :: _, [] => false
  | a :: as, b :: bs => a == b && leadsWith as bs

def hdrMark : Str := ['<', '<', '<', '<', '<', '<', '<']
def ftrMark : Str := ['>', '>', '>', '>', '>', '>', '>']
def sepLine : Str := ['=', '=', '=', '=', '=', '=', '=', '\n']

def isHeaderLine (l : Str) : Bool := leadsWith hdrMark l
def isFooterLine (l : Str) : Bool := leadsWith ftrMark l
def isSepLine (l : Str) : Bool := l == sepLine

/-- nom's `space0` character class: space and tab. -/
def isSpTab (c : Char) : Bool := c == ' ' || c == '\t'

/-- The whitespace class of Rust's `str::trim_end`, restricted to the ASCII
whitespace that can occur in a single line of our inputs. -/
def isWsChar (c : Char) : Bool := c == ' ' || c == '\t' || c == '\n' || c == '\r'

def trimEndWs (l : Str) : Str := (l.reverse.dropWhile isWsChar).reverse

/-- The branch name taken from a header/footer line: drop the seven marker
characters, drop `space0`, trim trailing whitespace (`parse_conflict_part`). -/
def extractName (l : Str) : Str := trimEndWs ((l.drop 7).dropWhile isSpTab)

/-! ## The chunk parser (`parse_file` / `parse_conflict`)

`parse_file` parses a list of chunks terminated by eof; a chunk is either a
conflict or any line.  `parse_conflict` is committed (`.cut()`) once the
header matched: the left half is any lines up to the separator line, the
right half any lines up to a footer line; reaching end of input inside a
conflict is a parse failure.  Since every sub-parser of `parse_file` consumes
whole lines, the parser is faithfully a state machine over the line list. -/

inductive RawChunk where
  | line (content : Str)
  | conflict (leftName : Str) (leftLines : List Str) (rightName : Str)
      (rightLines : List Str)
deriving DecidableEq

inductive PState where
  | top
  | inLeft (leftName : Str) (acc : List Str)
  | inRight (leftName : Str) (leftLines : List Str) (acc : List Str)

/-- The line-by-line parser. `none` models the hard parse failure that
`final_parser` reports when a conflict reaches end of input without its
separator or footer. -/
def parseAux : PState → List Str → Option (List RawChunk)
  | .top, [] => some []
  | .top, l :: rest =>
      if isHeaderLine l then parseAux (.inLeft (extractName l) []) rest
      else (parseAux .top rest).map (RawChunk.line l :: ·)
  | .inLeft _ _, [] => none
  | .inLeft n acc, l :: rest =>
      if isSepLine l then parseAux (.inRight n acc []) rest
      else parseAux (.inLeft n (acc ++ [l])) rest
  | .inRight _ _ _, [] => none
  | .inRight n ll acc, l :: rest =>
      if isFooterLine l then
        (parseAux .top rest).map
          (RawChunk.conflict n ll (extractName l) acc :: ·)
      else parseAux (.inRight n ll (acc ++ [l])) rest

/-- `GitFile::from_file`, at the granularity of lines. -/
def parseGitLines (ls : List Str) : Option (List RawChunk) := parseAux .top ls

/-- `GitFile::from_file` on raw text. -/
def parseGit (t : Str) : Option (List RawChunk) := parseGitLines (splitLines t)

/-! ## Reconstructing the text from chunks

This is the emission format of `write_conflict` in `write_file.rs`
(markers with a single space and a trailing newline), which is also the
format the round-trip claim C1 specifies. -/

def hdrLineOf (name : Str) : Str := hdrMark ++ [' '] ++ name ++ ['\n']
def ftrLineOf (name : Str) : Str := ftrMark ++ [' '] ++ name ++ ['\n']

def writeChunk : RawChunk → Str
  | .line l => l
  | .conflict ln ll rn rl =>
      hdrLineOf ln ++ joinStrs ll ++ sepLine ++ joinStrs rl ++ ftrLineOf rn

def writeChunks (cs : List RawChunk) : Str := joinStrs (cs.map writeChunk)

/-- Equality of texts up to one terminal newline. -/
def eqModNl (a b : Str) : Prop := a = b ∨ a = b ++ ['\n'] ∨ b = a ++ ['\n']

instance (a b : Str) : Decidable (eqModNl a b) := by
  unfold eqModNl; infer_instance

/-- A marker line is *canonical* when it is exactly the marker, one space,
the (already trimmed) branch name, and a newline — i.e. re-emitting it from
its extracted branch name reproduces it byte-for-byte. -/
def canonicalMarkerLine (l : Str) : Bool :=
  (!isHeaderLine l || l == hdrLineOf (extractName l)) &&
  (!isFooterLine l || l == ftrLineOf (extractName l))

def canonicalMarkers (ls : List Str) : Bool := ls.all canonicalMarkerLine

/-- The text that a partially parsed conflict will eventually re-emit before
the lines still to be consumed. -/
def pendingOut : PState → Str
  | .top => []
  | .inLeft n acc => hdrLineOf n ++ joinStrs acc
  | .inRight n ll acc =>
      hdrLineOf n ++ joinStrs ll ++ sepLine ++ joinStrs acc

theorem canonicalMarkers_cons {l : Str} {ls : List Str}
    (h : canonicalMarkers (l :: ls) = true) :
    canonicalMarkerLine l = true ∧ canonicalMarkers ls = true := by
  simpa [canonicalMarkers, List.all_cons, Bool.and_eq_true] using h

theorem canonical_header {l : Str} (hc : canonicalMarkerLine l = true)
    (hh : isHeaderLine l = true) : l = hdrLineOf (extractName l) := by
  unfold canonicalMarkerLine at hc
  rw [hh] at hc
  simp only [Bool.not_true, Bool.false_or, Bool.and_eq_true, beq_iff_eq] at hc
  exact hc.1

theorem canonical_footer {l : Str} (hc : canonicalMarkerLine l = true)
    (hf : isFooterLine l = true) : l = ftrLineOf (extractName l) := by
  unfold canonicalMarkerLine at hc
  rw [hf] at hc
  simp only [Bool.not_true, Bool.false_or, Bool.and_eq_true, beq_iff_eq] at hc
  exact hc.2

/-- Main round-trip invariant of the parser state machine: on success, the
re-emitted text is the pending prefix of the current state followed by the
remaining input, provided all marker lines are canonical. -/
theorem parseAux_roundTrip (ls : List Str) :
    ∀ (st : PState) (cs : List RawChunk),
      canonicalMarkers ls = true →
      parseAux st ls = some cs →
      writeChunks cs = pendingOut st ++ joinStrs ls := by
  induction ls with
  | nil =>
    intro st cs _ hp
    cases st with
    | top =>
      simp only [parseAux, Option.some.injEq] at hp
      subst hp
      simp [writeChunks, pendingOut]
    | inLeft n acc => simp [parseAux] at hp
    | inRight n ll acc => simp [parseAux] at hp
  | cons l rest ih =>
    intro st cs hc hp
    obtain ⟨hcl, hcrest⟩ := canonicalMarkers_cons hc
    cases st with
    | top =>
      by_cases hh : isHeaderLine l = true
      · rw [parseAux, if_pos hh] at hp
        have := ih (.inLeft (extractName l) []) cs hcrest hp
        rw [this]
        have hl := canonical_header hcl hh
        simp [pendingOut, joinStrs]
        rw [← hl]
      · rw [parseAux, if_neg hh] at hp
        cases hrec : parseAux .top rest with
        | none => rw [hrec] at hp; simp at hp
        | some cs0 =>
          rw [hrec] at hp
          simp only [Option.map_some', Option.some.injEq] at hp
          subst hp
          have := ih .top cs0 hcrest hrec
          simp [writeChunks, writeChunk, pendingOut] at this ⊢
          rw [this]
    | inLeft n acc =>
      by_cases hs : isSepLine l = true
      · rw [parseAux, if_pos hs] at hp
        have := ih (.inRight n acc []) cs hcrest hp
        rw [this]
        have hl : l = sepLine := by simpa [isSepLine] using hs
        simp [pendingOut, hl]
      · rw [parseAux, if_neg hs] at hp
        have := ih (.inLeft n (acc ++ [l])) cs hcrest hp
        rw [this]
        simp [pendingOut]
    | inRight n ll acc =>
      by_cases hf : isFooterLine l = true
      · rw [parseAux, if_pos hf] at hp
        cases hrec : parseAux .top rest with
        | none => rw [hrec] at hp; simp at hp
        | some cs0 =>
          rw [hrec] at hp
          simp only [Option.map_some', Option.some.injEq] at hp
          subst hp
          have := ih .top cs0 hcrest hrec
          simp [writeChunks, writeChunk, pendingOut] at this ⊢
          rw [this, ← canonical_footer hcl hf]
      · rw [parseAux, if_neg hf] at hp
        have := ih (.inRight n ll (acc ++ [l])) cs hcrest hp
        rw [this]
        simp [pendingOut]

/-! ### C1 : round-trip of the conflict-file parser -/

/-- The counterexample input for C1: the header has no space after the seven
chevrons, which `GitFile::from_file` accepts (`space0` matches zero spaces)
but whose re-emission normalizes to `"<<<<<<< x\n"`. -/
def c1BadInput : Str := "<<<<<<<x\n=======\n>>>>>>> y\n".toList

def c1BadChunks : List RawChunk :=
  [RawChunk.conflict "x".toList [] "y".toList []]

/-- **C1, counterexample.** `"<<<<<<<x\n=======\n>>>>>>> y\n"` is accepted by
`GitFile::from_file` (branch name `"x"`), but re-emitting its chunks with the
`"<<<<<<< "`-plus-branch-name format produces `"<<<<<<< x\n=======\n>>>>>>> y\n"`,
which differs from the input beyond a terminal newline.  So the round-trip
claim is false as stated. -/
theorem c1_counterexample :
    parseGit c1BadInput = some c1BadChunks ∧
    ¬ eqModNl (writeChunks c1BadChunks) c1BadInput := by
  constructor
  · rfl
  · decide

/-- **C1, amended.** For every input text accepted by `GitFile::from_file`
*whose marker lines are canonical* (exactly the seven-character marker, one
space, the trimmed branch name, and a newline), concatenating every chunk's
lines — with the `"<<<<<<< name"`, `"======="`, `">>>>>>> name"` lines for
conflicts — reproduces the input byte-for-byte.  (For non-canonical marker
lines the branch name is normalized by `space0`/`trim_end`, as the
counterexample shows.) -/
theorem c1_amended_roundTrip (t : Str) (cs : List RawChunk)
    (hc : canonicalMarkers (splitLines t) = true)
    (hp : parseGit t = some cs) :
    writeChunks cs = t := by
  have := parseAux_roundTrip (splitLines t) .top cs hc hp
  simpa [pendingOut, joinStrs_splitLines] using this

def c1GoodInput : Str := "a\n<<<<<<< x\nb\n=======\nc\n>>>>>>> y\nd\n".toList

def c1GoodChunks : List RawChunk :=
  [RawChunk.line "a\n".toList,
   RawChunk.conflict "x".toList ["b\n".toList] "y".toList ["c\n".toList],
   RawChunk.line "d\n".toList]

/-- Witness for `c1_amended_roundTrip` at a concrete conflicted input. -/
theorem c1_amended_roundTrip_witness :
    canonicalMarkers (splitLines c1GoodInput) = true ∧
    writeChunks c1GoodChunks = c1GoodInput :=
  ⟨by decide, c1_amended_roundTrip c1GoodInput c1GoodChunks (by decide) (by decide)⟩

/-! ### C5 : which marker patterns make parsing fail

In `gitfile.rs` the only hard failure is a conflict header whose separator
(or, after the separator, whose footer) never arrives before end of input:
`parse_conflict` is committed by `.cut()` once `parse_conflict_header`
succeeded, and `parse_lines_terminated` errors out when the input is emptied
without the terminator.  A separator or footer line outside a conflict is an
ordinary line (the `alt` falls through to `parse_any_line`), and a second
header inside an open conflict half is consumed as content by
`parse_any_line`. -/

/-- **C5, counterexample.**  A separator with no open header, and a footer
with no open header, both *parse successfully* as plain lines, contradicting
the claim that any marker outside a valid nesting fails with a
bad-conflict-marker error. -/
theorem c5_counterexample :
    parseGit "=======\n".toList = some [RawChunk.line sepLine] ∧
    parseGit ">>>>>>> x\n".toList =
      some [RawChunk.line ">>>>>>> x\n".toList] := by
  constructor <;> rfl

theorem parseAux_top_no_header (ls : List Str)
    (h : ∀ l ∈ ls, isHeaderLine l = false) :
    parseAux .top ls = some (ls.map RawChunk.line) := by
  induction ls with
  | nil => rfl
  | cons l rest ih =>
    have hl : isHeaderLine l = false := h l (by simp)
    rw [parseAux, if_neg (by simp [hl])]
    rw [ih (fun x hx => h x (by simp [hx]))]
    rfl

theorem parseAux_inLeft_no_sep (ls : List Str) :
    ∀ (n : Str) (acc : List Str), (∀ l ∈ ls, isSepLine l = false) →
      parseAux (.inLeft n acc) ls = none := by
  induction ls with
  | nil => intro n acc _; rfl
  | cons l rest ih =>
    intro n acc h
    have hl : isSepLine l = false := h l (by simp)
    rw [parseAux, if_neg (by simp [hl])]
    exact ih n (acc ++ [l]) (fun x hx => h x (by simp [hx]))

theorem parseAux_inRight_no_footer (ls : List Str) :
    ∀ (n : Str) (ll acc : List Str), (∀ l ∈ ls, isFooterLine l = false) →
      parseAux (.inRight n ll acc) ls = none := by
  induction ls with
  | nil => intro n ll acc _; rfl
  | cons l rest ih =>
    intro n ll acc h
    have hl : isFooterLine l = false := h l (by simp)
    rw [parseAux, if_neg (by simp [hl])]
    exact ih n ll (acc ++ [l]) (fun x hx => h x (by simp [hx]))

theorem parseAux_inLeft_to_sep (mid : List Str) :
    ∀ (acc : List Str) (n : Str) (post : List Str),
      (∀ l ∈ mid, isSepLine l = false) →
      parseAux (.inLeft n acc) (mid ++ sepLine :: post) =
        parseAux (.inRight n (acc ++ mid) []) post := by
  induction mid with
  | nil =>
    intro acc n post _
    rw [List.nil_append, parseAux, if_pos (by decide), List.append_nil]
  | cons m rest ih =>
    intro acc n post h
    have hm : isSepLine m = false := h m (by simp)
    rw [List.cons_append, parseAux, if_neg (by simp [hm])]
    rw [ih (acc ++ [m]) n post (fun x hx => h x (by simp [hx]))]
    simp

theorem parseAux_top_through (pre : List Str) (tail : List Str)
    (h : ∀ l ∈ pre, isHeaderLine l = false) :
    parseAux .top (pre ++ tail) =
      (parseAux .top tail).map (pre.map RawChunk.line ++ ·) := by
  induction pre with
  | nil => simp
  | cons l rest ih =>
    have hl : isHeaderLine l = false := h l (by simp)
    rw [List.cons_append, parseAux, if_neg (by simp [hl])]
    rw [ih (fun x hx => h x (by simp [hx]))]
    cases parseAux .top tail <;> rfl

/-- **C5, amended.**  Parsing fails exactly on unterminated conflicts:
(i) an input with no header-prefixed line always parses, every line (stray
separators and footers included) becoming a plain-line chunk;
(ii) if a header line opens a conflict and no later line is the separator,
parsing fails;
(iii) if a header line opens a conflict whose separator arrives but no later
line is a footer line, parsing fails. -/
theorem c5_amended_markerErrors :
    (∀ ls : List Str, (∀ l ∈ ls, isHeaderLine l = false) →
      parseGitLines ls = some (ls.map RawChunk.line)) ∧
    (∀ (pre post : List Str) (h : Str), (∀ l ∈ pre, isHeaderLine l = false) →
      isHeaderLine h = true → (∀ l ∈ post, isSepLine l = false) →
      parseGitLines (pre ++ h :: post) = none) ∧
    (∀ (pre mid post : List Str) (h : Str),
      (∀ l ∈ pre, isHeaderLine l = false) → isHeaderLine h = true →
      (∀ l ∈ mid, isSepLine l = false) → (∀ l ∈ post, isFooterLine l = false) →
      parseGitLines (pre ++ h :: (mid ++ sepLine :: post)) = none) := by
  refine ⟨fun ls h => parseAux_top_no_header ls h, ?_, ?_⟩
  · intro pre post h hpre hh hpost
    unfold parseGitLines
    rw [parseAux_top_through pre (h :: post) hpre]
    rw [parseAux, if_pos hh, parseAux_inLeft_no_sep post _ [] hpost]
    rfl
  · intro pre mid post h hpre hh hmid hpost
    unfold parseGitLines
    rw [parseAux_top_through pre (h :: (mid ++ sepLine :: post)) hpre]
    rw [parseAux, if_pos hh]
    rw [parseAux_inLeft_to_sep mid [] (extractName h) post hmid]
    rw [parseAux_inRight_no_footer post _ _ [] hpost]
    rfl

/-- Witness for `c5_amended_markerErrors`: the three clauses at concrete
inputs — a stray separator parses as a line; an unterminated header fails;
a header whose separator arrives but whose footer never does fails. -/
theorem c5_amended_markerErrors_witness :
    parseGitLines [sepLine] = some [RawChunk.line sepLine] ∧
    parseGitLines ["a\n".toList, "<<<<<<< x\n".toList, "b\n".toList] = none ∧
    parseGitLines ["<<<<<<< x\n".toList, sepLine, "b\n".toList] = none :=
  ⟨by
      have := c5_amended_markerErrors.1 [sepLine] (by decide)
      simpa using this,
   by
      have := c5_amended_markerErrors.2.1 ["a\n".toList] ["b\n".toList]
        "<<<<<<< x\n".toList (by decide) (by decide) (by decide)
      simpa using this,
   by
      have := c5_amended_markerErrors.2.2 [] [] ["b\n".toList]
        "<<<<<<< x\n".toList (by decide) (by decide) (by decide) (by decide)
      simpa using this⟩

/-! ## The rewriter (`write_file.rs`)

`write_corrected_file` consumes the parsed `GitFile` (chunks whose lines
carry their original line numbers), the set `D` of discarded line numbers,
and the formatted use-items buffer `B`.  We model each `write_all`/`write!`
call as appending one byte-chunk to the output list. -/

/-- A line with its original line number (`gitfile::Line`). -/
structure NLine where
  content : Str
  num : Nat
deriving DecidableEq

/-- A conflict whose halves carry numbered lines (`gitfile::Conflict`). -/
structure NConflict where
  leftName : Str
  rightName : Str
  left : List NLine
  right : List NLine
deriving DecidableEq

/-- `gitfile::Chunk` with numbered lines. -/
inductive NChunk where
  | line (l : NLine)
  | conflict (c : NConflict)
deriving DecidableEq

/-- `first_matching_line_number_in_conflict_half`. -/
def firstDisc (half : List NLine) (D : List Nat) : Option Nat :=
  (half.find? (fun l => D.contains l.num)).map NLine.num

/-- `write_file::InsertPoint`. -/
inductive InsertPoint where
  | nowhere
  | once (n : Nat)
  | intoConflict (l r : Nat)
deriving DecidableEq

/-- `InsertPoint::contains_line`. -/
def InsertPoint.containsLine : InsertPoint → Nat → Bool
  | .nowhere, _ => false
  | .once p, n => p == n
  | .intoConflict l r, n => l == n || r == n

/-- `Option::or` (`left_point.or(Some(left))`). -/
def optOr : Option Nat → Option Nat → Option Nat
  | some x, _ => some x
  | none, y => y

@[simp] theorem optOr_some (x : Nat) (y : Option Nat) :
    optOr (some x) y = some x := rfl

@[simp] theorem optOr_none (y : Option Nat) : optOr none y = y := rfl

/-- The accumulator loop of `find_insert_point`. -/
def findInsertPointGo (D : List Nat) :
    List NChunk → Option Nat → Option Nat → InsertPoint
  | [], lp, rp =>
      match lp, rp with
      | some l, some r => .intoConflict l r
      | some p, none => .once p
      | none, some p => .once p
      | none, none => .nowhere
  | c :: rest, lp, rp =>
      match c with
      | .line l =>
          if D.contains l.num then .once l.num
          else findInsertPointGo D rest lp rp
      | .conflict cf =>
          match firstDisc cf.left D, firstDisc cf.right D with
          | some l, some r => .intoConflict l r
          | some l, none => findInsertPointGo D rest (optOr lp (some l)) rp
          | none, some r => findInsertPointGo D rest lp (optOr rp (some r))
          | none, none => findInsertPointGo D rest lp rp

/-- `find_insert_point`. -/
def findInsertPoint (gf : List NChunk) (D : List Nat) : InsertPoint :=
  findInsertPointGo D gf none none

/-- `find_split_point`: index of the line with the given number. -/
def findSplitPoint (half : List NLine) (n : Nat) : Option Nat :=
  half.findIdx? (fun l => l.num == n)

/-- `InsertPoint::try_split_conflict`: on an `IntoConflict` anchor whose two
line numbers both occur in this conflict, split each half around its anchor
line into top and bottom (the anchor lines themselves are dropped). -/
def trySplitConflict (ip : InsertPoint) (c : NConflict) :
    Option ((List NLine × List NLine) × (List NLine × List NLine)) :=
  match ip with
  | .nowhere => none
  | .once _ => none
  | .intoConflict l r =>
      match findSplitPoint c.left l, findSplitPoint c.right r with
      | some i, some j =>
          some ((c.left.take i, c.right.take j),
                (c.left.drop (i + 1), c.right.drop (j + 1)))
      | _, _ => none

/-- `filtered_lines`: drop discarded lines, keep contents. -/
def filteredLines (D : List Nat) (ls : List NLine) : List Str :=
  (ls.filter (fun l => !(D.contains l.num))).map NLine.content

/-- `filtered_lines_inject_content`: replace anchor lines by the buffer,
drop discarded lines, keep the rest. -/
def filteredInject (D : List Nat) (B : Str) (ip : InsertPoint)
    (ls : List NLine) : List Str :=
  ls.filterMap (fun l =>
    if ip.containsLine l.num then some B
    else if D.contains l.num then none
    else some l.content)

/-- The contents handed to `write_conflict`: branch names plus the two
halves as plain byte strings. -/
structure PrintedConflict where
  leftName : Str
  rightName : Str
  left : List Str
  right : List Str
deriving DecidableEq

/-- `write_conflict`: identical halves are written once without markers;
otherwise the full markered form is written. -/
def writeConflictChunks (pc : PrintedConflict) : List Str :=
  if pc.left == pc.right then pc.left
  else hdrLineOf pc.leftName :: pc.left ++ sepLine :: pc.right ++
    [ftrLineOf pc.rightName]

/-- The second loop of `write_corrected_file` (after the insert happened):
plain filtering only. -/
def writePhase2 (D : List Nat) : List NChunk → List Str
  | [] => []
  | .line l :: rest =>
      if D.contains l.num then writePhase2 D rest
      else l.content :: writePhase2 D rest
  | .conflict c :: rest =>
      writeConflictChunks
        ⟨c.leftName, c.rightName, filteredLines D c.left, filteredLines D c.right⟩
        ++ writePhase2 D rest

/-- The first loop of `write_corrected_file` (still looking for the insert
point; `break` moves to `writePhase2`). -/
def writePhase1 (D : List Nat) (B : Str) (ip : InsertPoint) :
    List NChunk → List Str
  | [] => []
  | .line l :: rest =>
      if ip.containsLine l.num then B :: writePhase2 D rest
      else if D.contains l.num then writePhase1 D B ip rest
      else l.content :: writePhase1 D B ip rest
  | .conflict c :: rest =>
      match trySplitConflict ip c with
      | some ((tl, tr), (bl, br)) =>
          writeConflictChunks
            ⟨c.leftName, c.rightName, tl.map NLine.content, tr.map NLine.content⟩
          ++ B :: (writeConflictChunks
            ⟨c.leftName, c.rightName, filteredLines D bl, filteredLines D br⟩
          ++ writePhase2 D rest)
      | none =>
          writeConflictChunks
            ⟨c.leftName, c.rightName,
             filteredInject D B ip c.left, filteredInject D B ip c.right⟩
          ++ writePhase1 D B ip rest

/-- `write_corrected_file`, as the list of byte-chunks written to `dest`. -/
def writeCorrectedFile (gf : List NChunk) (D : List Nat) (B : Str) :
    List Str :=
  writePhase1 D B (findInsertPoint gf D) gf

/-- Number of conflict-header lines among the written byte-chunks. -/
def countHeaderChunks (out : List Str) : Nat :=
  (out.filter (fun s => leadsWith hdrMark s)).length

theorem countHeaderChunks_append (a b : List Str) :
    countHeaderChunks (a ++ b) = countHeaderChunks a + countHeaderChunks b := by
  simp [countHeaderChunks, List.filter_append]

theorem countHeaderChunks_zero_of (out : List Str)
    (h : ∀ s ∈ out, leadsWith hdrMark s = false) :
    countHeaderChunks out = 0 := by
  unfold countHeaderChunks
  rw [List.filter_eq_nil_iff.mpr (fun s hs => by simp [h s hs])]
  rfl

@[simp] theorem leadsWith_hdrMark_hdrLineOf (n : Str) :
    leadsWith hdrMark (hdrLineOf n) = true := rfl

@[simp] theorem leadsWith_hdrMark_sepLine :
    leadsWith hdrMark sepLine = false := rfl

@[simp] theorem leadsWith_hdrMark_ftrLineOf (n : Str) :
    leadsWith hdrMark (ftrLineOf n) = false := rfl

theorem countHeaderChunks_cons (s : Str) (out : List Str) :
    countHeaderChunks (s :: out) =
      (if leadsWith hdrMark s then 1 else 0) + countHeaderChunks out := by
  unfold countHeaderChunks
  rw [List.filter_cons]
  by_cases h : leadsWith hdrMark s <;> simp [h, Nat.add_comm]

@[simp] theorem countHeaderChunks_hdrLine (n : Str) :
    countHeaderChunks [hdrLineOf n] = 1 := rfl

@[simp] theorem countHeaderChunks_sepLine : countHeaderChunks [sepLine] = 0 := rfl

@[simp] theorem countHeaderChunks_ftrLine (n : Str) :
    countHeaderChunks [ftrLineOf n] = 0 := rfl

/-! ### C4 : the `Nowhere` anchor never emits the buffer

The spec says that with anchor `Nowhere` the formatted use items `B` are
emitted immediately before the first chunk.  In `write_corrected_file`,
however, with `InsertPoint::Nowhere` the first loop never `break`s
(`contains_line` is constantly false and `try_split_conflict` returns
`None`), so the buffer is *never* written — contradicting the function's own
trailing comment "At this point, it's guaranteed that we've written the use
items". -/

def c4File : List NChunk := [NChunk.line ⟨"x\n".toList, 1⟩]

def c4Buffer : Str := "use a;\n".toList

/-- **C4, failing input.**  On a one-line file with an empty discard set the
anchor is `Nowhere`, and the output is just the original line: the buffer is
not emitted at all, rather than being emitted before the first chunk. -/
theorem c4_nowhere_never_writes_buffer :
    findInsertPoint c4File [] = InsertPoint.nowhere ∧
    writeCorrectedFile c4File [] c4Buffer = ["x\n".toList] ∧
    writeCorrectedFile c4File [] c4Buffer ≠ c4Buffer :: ["x\n".toList] := by
  refine ⟨rfl, rfl, by decide⟩

/-! ### C2 : conflict collapse and marker balance -/

def c2Conflict : NConflict :=
  { leftName := "L".toList
    rightName := "R".toList
    left := [⟨"a\n".toList, 2⟩, ⟨"u\n".toList, 3⟩, ⟨"c\n".toList, 4⟩]
    right := [⟨"b\n".toList, 6⟩, ⟨"v\n".toList, 7⟩, ⟨"d\n".toList, 8⟩] }

def c2File : List NChunk := [NChunk.conflict c2Conflict]

/-- **C2, counterexample.**  One input conflict whose filtered halves differ
(`a c` vs `b d`), so the claim predicts exactly one marker triple in the
output.  But the anchor is `IntoConflict(3,7)`, the conflict is split into a
top and a bottom conflict around the anchor lines, both with differing
halves, and the output contains **two** header/separator/footer triples. -/
theorem c2_counterexample :
    countHeaderChunks (writeCorrectedFile c2File [3, 7] "use x;\n".toList) = 2 ∧
    filteredLines [3, 7] c2Conflict.left ≠ filteredLines [3, 7] c2Conflict.right ∧
    c2File = [NChunk.conflict c2Conflict] := by
  refine ⟨by decide, by decide, rfl⟩

/-- **C2, amended.**  For each conflict actually emitted through
`write_conflict`: if the two (already filtered) halves are byte-identical
line sequences, the lines are written once with no markers; otherwise the
full markered form is written; accordingly each emission contributes exactly
one marker triple when its halves differ and none otherwise.  (The global
input-conflict count identity fails because an `IntoConflict` anchor splits
one input conflict into two emitted conflicts, as the counterexample shows.) -/
theorem c2_amended_writeConflict (pc : PrintedConflict) :
    (pc.left = pc.right → writeConflictChunks pc = pc.left) ∧
    (pc.left ≠ pc.right →
      writeConflictChunks pc =
        hdrLineOf pc.leftName :: pc.left ++ sepLine :: pc.right ++
          [ftrLineOf pc.rightName]) ∧
    ((∀ s ∈ pc.left, leadsWith hdrMark s = false) →
     (∀ s ∈ pc.right, leadsWith hdrMark s = false) →
      countHeaderChunks (writeConflictChunks pc) =
        if pc.left = pc.right then 0 else 1) := by
  refine ⟨?_, ?_, ?_⟩
  · intro h
    simp [writeConflictChunks, h]
  · intro h
    have hb : (pc.left == pc.right) = false := beq_eq_false_iff_ne.mpr h
    simp [writeConflictChunks, hb]
  · intro hl hr
    by_cases h : pc.left = pc.right
    · have hb : (pc.left == pc.right) = true := beq_iff_eq.mpr h
      rw [if_pos h]
      unfold writeConflictChunks
      rw [hb]
      exact countHeaderChunks_zero_of pc.left hl
    · have hb : (pc.left == pc.right) = false := beq_eq_false_iff_ne.mpr h
      rw [if_neg h]
      unfold writeConflictChunks
      rw [hb]
      simp only [Bool.false_eq_true, if_false]
      rw [countHeaderChunks_append, countHeaderChunks_append,
        countHeaderChunks_cons, countHeaderChunks_cons,
        countHeaderChunks_zero_of pc.left hl,
        countHeaderChunks_zero_of pc.right hr]
      simp

def c2SamplePc : PrintedConflict :=
  { leftName := "L".toList, rightName := "R".toList
    left := ["a\n".toList], right := ["b\n".toList] }

/-! ### C3 : anchor selection

`find_insert_point` walks the chunks **once**: it stops at the first chunk
that is either a plain line in `D` or a conflict with discarded lines on
both sides — whichever of the two comes first (the code's own comment says
"whichever is first").  The claim instead gives global priority to plain
lines over conflicts; those two readings differ, see the counterexample. -/

/-- A chunk at which the single-pass walk stops, with its decision. -/
def chunkDecision (D : List Nat) : NChunk → Option InsertPoint
  | .line l => if D.contains l.num then some (.once l.num) else none
  | .conflict cf =>
      match firstDisc cf.left D, firstDisc cf.right D with
      | some l, some r => some (.intoConflict l r)
      | _, _ => none

/-- First discarded line of a conflict that has discards on the left side
only. -/
def leftOnlyPt (D : List Nat) : NChunk → Option Nat
  | .line _ => none
  | .conflict cf =>
      match firstDisc cf.left D, firstDisc cf.right D with
      | some l, none => some l
      | _, _ => none

/-- First discarded line of a conflict that has discards on the right side
only. -/
def rightOnlyPt (D : List Nat) : NChunk → Option Nat
  | .line _ => none
  | .conflict cf =>
      match firstDisc cf.left D, firstDisc cf.right D with
      | none, some r => some r
      | _, _ => none

/-- Declarative description of the anchor: the decision of the first
deciding chunk; otherwise built from the first left-only and first
right-only discard points across (necessarily different) conflicts. -/
def findInsertPointSpec (gf : List NChunk) (D : List Nat) : InsertPoint :=
  match gf.findSome? (chunkDecision D) with
  | some ip => ip
  | none =>
      match gf.findSome? (leftOnlyPt D), gf.findSome? (rightOnlyPt D) with
      | some l, some r => .intoConflict l r
      | some p, none => .once p
      | none, some p => .once p
      | none, none => .nowhere

theorem findInsertPointGo_spec (D : List Nat) (gf : List NChunk) :
    ∀ lp rp : Option Nat,
      findInsertPointGo D gf lp rp =
        match gf.findSome? (chunkDecision D) with
        | some ip => ip
        | none =>
            match optOr lp (gf.findSome? (leftOnlyPt D)),
                  optOr rp (gf.findSome? (rightOnlyPt D)) with
            | some l, some r => .intoConflict l r
            | some p, none => .once p
            | none, some p => .once p
            | none, none => .nowhere := by
  induction gf with
  | nil =>
    intro lp rp
    simp only [List.findSome?_nil]
    cases lp <;> cases rp <;> rfl
  | cons c rest ih =>
    intro lp rp
    cases c with
    | line l =>
      by_cases hd : D.contains l.num = true
      · simp only [findInsertPointGo, hd, if_true, List.findSome?_cons,
          chunkDecision]
      · have hd' : D.contains l.num = false := by simpa using hd
        simp only [findInsertPointGo, hd', Bool.false_eq_true, if_false,
          List.findSome?_cons, chunkDecision, leftOnlyPt, rightOnlyPt]
        exact ih lp rp
    | conflict cf =>
      rcases hfl : firstDisc cf.left D with _ | l <;>
        rcases hfr : firstDisc cf.right D with _ | r
      · simp only [findInsertPointGo, hfl, hfr, List.findSome?_cons,
          chunkDecision, leftOnlyPt, rightOnlyPt]
        exact ih lp rp
      · simp only [findInsertPointGo, hfl, hfr, List.findSome?_cons,
          chunkDecision, leftOnlyPt, rightOnlyPt]
        rw [ih lp (optOr rp (some r))]
        cases rp <;> rfl
      · simp only [findInsertPointGo, hfl, hfr, List.findSome?_cons,
          chunkDecision, leftOnlyPt, rightOnlyPt]
        rw [ih (optOr lp (some l)) rp]
        cases lp <;> rfl
      · simp only [findInsertPointGo, hfl, hfr, List.findSome?_cons,
          chunkDecision]

/-- **C3, amended.**  The anchor is decided by a *single* walk: the decision
of the first chunk that is either a plain line in `D` (→ `Once`) or a
conflict with discards on both sides (→ `IntoConflict`), whichever comes
first; when no chunk decides, the first left-only and first right-only
discard points (from different conflicts) are combined —
`IntoConflict` when both exist, `Once` when exactly one does, `Nowhere`
otherwise. -/
theorem c3_amended_findInsertPoint (gf : List NChunk) (D : List Nat) :
    findInsertPoint gf D = findInsertPointSpec gf D := by
  unfold findInsertPoint findInsertPointSpec
  rw [findInsertPointGo_spec D gf none none]
  rfl

def c3Conflict : NConflict :=
  { leftName := "L".toList
    rightName := "R".toList
    left := [⟨"u\n".toList, 2⟩]
    right := [⟨"v\n".toList, 4⟩] }

def c3File : List NChunk :=
  [NChunk.conflict c3Conflict, NChunk.line ⟨"w\n".toList, 6⟩]

/-- **C3, counterexample.**  A conflict with discarded lines on both sides
precedes a plain discarded line.  The claim's ordering ("SingleLine for the
first PlainLine in D; otherwise InsideConflict…") demands `Once 6`, but the
single-pass code stops at the earlier conflict and returns
`IntoConflict 2 4`. -/
theorem c3_counterexample :
    findInsertPoint c3File [2, 4, 6] = InsertPoint.intoConflict 2 4 ∧
    findInsertPoint c3File [2, 4, 6] ≠ InsertPoint.once 6 ∧
    NChunk.line ⟨"w\n".toList, 6⟩ ∈ c3File ∧ (6 : Nat) ∈ [2, 4, 6] := by
  refine ⟨by decide, by decide, by decide, by decide⟩

/-- Witness for `c2_amended_writeConflict` at a concrete conflict with
differing halves. -/
theorem c2_amended_writeConflict_witness :
    c2SamplePc.left ≠ c2SamplePc.right ∧
    writeConflictChunks c2SamplePc =
      hdrLineOf c2SamplePc.leftName :: c2SamplePc.left ++ sepLine ::
        c2SamplePc.right ++ [ftrLineOf c2SamplePc.rightName] ∧
    countHeaderChunks (writeConflictChunks c2SamplePc) = 1 :=
  ⟨by decide,
   (c2_amended_writeConflict c2SamplePc).2.1 (by decide),
   by
     have := (c2_amended_writeConflict c2SamplePc).2.2
       (by decide) (by decide)
     simpa using this⟩

/-! ## Visibility merging and docs merging (`flattened.rs`, `tree.rs`) -/

/-- `tree::Visibility`.  A `pub(in path)` restriction carries its path
segments. -/
inductive Vis where
  | pub
  | crate
  | this
  | super_
  | inPath (p : List Str)
deriving DecidableEq

/-- `merge_visibilities`, with the source's match arms in source order
(Rust tries `(This, vis) | (vis, This)` first, then `Super`, then the
`In`/`In` length comparison, then `In` versus the rest, then `Crate`). -/
def mergeVisibilities : Option Vis → Option Vis → Option Vis
  | none, vis => vis
  | vis, none => vis
  | some vis1, some vis2 =>
      some (match vis1, vis2 with
        | .this, vis => vis
        | vis, .this => vis
        | .super_, vis => vis
        | vis, .super_ => vis
        | .inPath p1, .inPath p2 =>
            if p1.length < p2.length then .inPath p1 else .inPath p2
        | .inPath _, vis => vis
        | vis, .inPath _ => vis
        | .crate, vis => vis
        | vis, .crate => vis
        | .pub, .pub => .pub)

/-- Publicity rank of the order
`private-to-self ≤ private-to-super ≤ restricted-to ≤ crate-wide ≤ public`. -/
def visRank : Vis → Nat
  | .this => 0
  | .super_ => 1
  | .inPath _ => 2
  | .crate => 3
  | .pub => 4

/-- **C7.**  `merge_visibilities` returns the more-public argument under the
order `this ≤ super ≤ in(path) ≤ crate ≤ pub`; among two `in(path)`
restrictions the one with strictly fewer segments wins; `None` is replaced
by any present visibility. -/
theorem c7_mergeVisibilities (v1 v2 : Vis) :
    mergeVisibilities none (some v1) = some v1 ∧
    mergeVisibilities (some v1) none = some v1 ∧
    mergeVisibilities none none = none ∧
    (visRank v1 < visRank v2 →
      mergeVisibilities (some v1) (some v2) = some v2) ∧
    (visRank v2 < visRank v1 →
      mergeVisibilities (some v1) (some v2) = some v1) ∧
    (∀ p q : List Str, p.length < q.length →
      mergeVisibilities (some (Vis.inPath p)) (some (Vis.inPath q)) =
        some (Vis.inPath p)) ∧
    (∀ p q : List Str, q.length < p.length →
      mergeVisibilities (some (Vis.inPath p)) (some (Vis.inPath q)) =
        some (Vis.inPath q)) := by
  refine ⟨rfl, rfl, rfl, ?_, ?_, ?_, ?_⟩
  · intro h
    cases v1 <;> cases v2 <;> first
      | rfl
      | (exfalso; simp [visRank] at h)
  · intro h
    cases v1 <;> cases v2 <;> first
      | rfl
      | (exfalso; simp [visRank] at h)
  · intro p q h
    simp [mergeVisibilities, h]
  · intro p q h
    have h2 : ¬ p.length < q.length := by omega
    simp [mergeVisibilities, h2]

/-- Witness for `c7_mergeVisibilities`: `pub(super)` merged with `pub`
gives `pub`; among `pub(in a::b)` and `pub(in a)` the shorter path wins. -/
theorem c7_mergeVisibilities_witness :
    visRank Vis.super_ < visRank Vis.pub ∧
    mergeVisibilities (some Vis.super_) (some Vis.pub) = some Vis.pub ∧
    mergeVisibilities (some (Vis.inPath ["a".toList, "b".toList]))
      (some (Vis.inPath ["a".toList])) = some (Vis.inPath ["a".toList]) :=
  ⟨by decide,
   (c7_mergeVisibilities Vis.super_ Vis.pub).2.2.2.1 (by decide),
   (c7_mergeVisibilities Vis.pub Vis.pub).2.2.2.2.2.2
     ["a".toList, "b".toList] ["a".toList] (by decide)⟩

/-- `tree::DocsList`: a list of doc blocks. -/
abbrev DocsList := List Str

/-- `DocsList::bytes`, flattened content. -/
def docBytes (d : DocsList) : Str := joinStrs d

/-- `DocsList::either_prefix` (byte-wise). -/
def eitherLead (d1 d2 : DocsList) : Bool :=
  leadsWith (docBytes d1) (docBytes d2) || leadsWith (docBytes d2) (docBytes d1)

/-- `DocsList::either_suffix` (byte-wise, via reversal). -/
def eitherTail (d1 d2 : DocsList) : Bool :=
  leadsWith (docBytes d1).reverse (docBytes d2).reverse ||
  leadsWith (docBytes d2).reverse (docBytes d1).reverse

/-- `DocsList::len` in bytes. -/
def docsLen (d : DocsList) : Nat := (docBytes d).length

/-- `DocsList::combine`: keep the longer when one is a byte-prefix or
byte-suffix of the other, otherwise concatenate. -/
def docsCombine (d1 d2 : DocsList) : DocsList :=
  if eitherLead d1 d2 || eitherTail d1 d2 then
    (if docsLen d1 < docsLen d2 then d2 else d1)
  else d1 ++ d2

/-- **C8, counterexample.**  Neither merge is commutative: combining the doc
lists `["x"]` and `["y"]` concatenates in argument order, and merging two
`pub(in …)` visibilities with equal segment counts keeps the second. -/
theorem c8_counterexample :
    docsCombine ["x".toList] ["y".toList] ≠
      docsCombine ["y".toList] ["x".toList] ∧
    mergeVisibilities (some (Vis.inPath ["a".toList]))
        (some (Vis.inPath ["b".toList])) ≠
      mergeVisibilities (some (Vis.inPath ["b".toList]))
        (some (Vis.inPath ["a".toList])) := by
  refine ⟨by decide, by decide⟩

/-- Pairs of visibilities on which `merge_visibilities` commutes: everything
except two `in(path)` restrictions with equal segment counts and different
paths. -/
def visCommOk : Option Vis → Option Vis → Prop
  | some (.inPath p), some (.inPath q) => p.length ≠ q.length ∨ p = q
  | _, _ => True

theorem leadsWith_refl (s : Str) : leadsWith s s = true := by
  induction s with
  | nil => rfl
  | cons c cs ih => simp [leadsWith, ih]

/-- **C8, amended.**  `merge_visibilities` commutes on every pair except two
`pub(in …)` with equal segment counts (and different paths); `DocsList`
combination commutes when the two lists are equal, or when one's bytes are a
prefix or suffix of the other's and the byte lengths differ.  In general the
flatten-stage merges are order-dependent, as the counterexample shows. -/
theorem c8_amended_commutativity :
    (∀ o1 o2 : Option Vis, visCommOk o1 o2 →
      mergeVisibilities o1 o2 = mergeVisibilities o2 o1) ∧
    (∀ d1 d2 : DocsList,
      d1 = d2 ∨ ((eitherLead d1 d2 || eitherTail d1 d2) = true ∧
        docsLen d1 ≠ docsLen d2) →
      docsCombine d1 d2 = docsCombine d2 d1) := by
  constructor
  · intro o1 o2 hok
    match o1, o2 with
    | none, none => rfl
    | none, some v => cases v <;> rfl
    | some v, none => cases v <;> rfl
    | some v1, some v2 =>
      cases v1 <;> cases v2 <;> first
        | rfl
        | skip
      rename_i p q
      rcases hok with h | h
      · rcases Nat.lt_or_ge p.length q.length with hlt | hge
        · simp [mergeVisibilities, hlt, Nat.not_lt_of_lt hlt]
        · have hqp : q.length < p.length := by omega
          simp [mergeVisibilities, hqp, Nat.not_lt_of_lt hqp]
      · subst h; rfl
  · intro d1 d2 hok
    rcases hok with h | ⟨hps, hlen⟩
    · subst h; rfl
    · have hps2 : (eitherLead d2 d1 || eitherTail d2 d1) = true := by
        unfold eitherLead eitherTail at hps ⊢
        rcases Bool.or_eq_true_iff.mp hps with h | h <;>
          rcases Bool.or_eq_true_iff.mp h with h2 | h2 <;>
          simp [h2]
      unfold docsCombine
      rw [hps, hps2]
      simp only [if_true]
      rcases Nat.lt_or_ge (docsLen d1) (docsLen d2) with hlt | hge
      · simp [hlt, Nat.not_lt_of_lt hlt]
      · have hqp : docsLen d2 < docsLen d1 := by omega
        simp [hqp, Nat.not_lt_of_lt hqp]

/-- Witness for `c8_amended_commutativity`: commuting cases at concrete
inputs. -/
theorem c8_amended_commutativity_witness :
    visCommOk (some (Vis.inPath ["a".toList]))
      (some (Vis.inPath ["a".toList, "b".toList])) ∧
    mergeVisibilities (some (Vis.inPath ["a".toList]))
        (some (Vis.inPath ["a".toList, "b".toList])) =
      mergeVisibilities (some (Vis.inPath ["a".toList, "b".toList]))
        (some (Vis.inPath ["a".toList])) ∧
    docsCombine ["ab".toList] ["a".toList] =
      docsCombine ["a".toList] ["ab".toList] :=
  ⟨by simp [visCommOk],
   c8_amended_commutativity.1 _ _ (by simp [visCommOk]),
   c8_amended_commutativity.2 ["ab".toList] ["a".toList]
     (Or.inr (by constructor <;> decide))⟩

/-! ## Config normalization (`flattened.rs::add_properties`)

`NormalizedUsedItems` maps each flattened path to a `BTreeMap` from
`ConfigsList` (a sorted set of config strings; the empty list is the
unconditional key) to `UsedItemPropertiesGroup`.  We model the `BTreeMap`
as a key-sorted association list. -/

/-- Character comparison (Rust compares strings byte-wise). -/
def chCmp (a b : Char) : Ordering := compare a.toNat b.toNat

/-- Derived lexicographic `Ord` on sequences. -/
def lexCmp (cmp : α → α → Ordering) : List α → List α → Ordering
  | [], [] => .eq
  | [], _ :: _ => .lt
  | _ :: _, [] => .gt
  | a :: as, b :: bs =>
      match cmp a b with
      | .eq => lexCmp cmp as bs
      | o => o

/-- Lexicographic comparison of strings. -/
def clCmp : Str → Str → Ordering := lexCmp chCmp

/-- Lexicographic comparison of string lists (`BTreeSet<Config>` ordering:
the empty, unconditional set is least). -/
def cllCmp : List Str → List Str → Ordering := lexCmp clCmp

theorem chCmp_eq_iff (a b : Char) : chCmp a b = .eq ↔ a = b := by
  unfold chCmp
  rw [Nat.compare_eq_eq]
  constructor
  · intro h
    have := congrArg Char.ofNat h
    simpa [Char.ofNat_toNat] using this
  · intro h
    rw [h]

theorem chCmp_swap (a b : Char) : chCmp b a = (chCmp a b).swap := by
  unfold chCmp
  exact (Nat.compare_swap _ _).symm

theorem lexCmp_eq_iff (cmp : α → α → Ordering)
    (hcmp : ∀ a b, cmp a b = .eq ↔ a = b) :
    ∀ l1 l2 : List α, lexCmp cmp l1 l2 = .eq ↔ l1 = l2
  | [], [] => by simp [lexCmp]
  | [], _ :: _ => by simp [lexCmp]
  | _ :: _, [] => by simp [lexCmp]
  | a :: as, b :: bs => by
      rw [lexCmp]
      rcases h : cmp a b with _ | _ | _
      · refine iff_of_false (by simp) ?_
        simp only [List.cons.injEq, not_and]
        intro hab
        rw [(hcmp a b).mpr hab] at h
        exact Ordering.noConfusion h
      · have hab : a = b := (hcmp a b).mp h
        rw [lexCmp_eq_iff cmp hcmp as bs]
        simp [hab]
      · refine iff_of_false (by simp) ?_
        simp only [List.cons.injEq, not_and]
        intro hab
        rw [(hcmp a b).mpr hab] at h
        exact Ordering.noConfusion h

theorem lexCmp_swap (cmp : α → α → Ordering)
    (hswap : ∀ a b, cmp b a = (cmp a b).swap) :
    ∀ l1 l2 : List α, lexCmp cmp l2 l1 = (lexCmp cmp l1 l2).swap
  | [], [] => rfl
  | [], _ :: _ => rfl
  | _ :: _, [] => rfl
  | a :: as, b :: bs => by
      rw [lexCmp, lexCmp, hswap a b]
      rcases h : cmp a b with _ | _ | _
      · rfl
      · simpa using lexCmp_swap cmp hswap as bs
      · rfl

theorem clCmp_eq_iff (a b : Str) : clCmp a b = .eq ↔ a = b :=
  lexCmp_eq_iff chCmp chCmp_eq_iff a b

theorem clCmp_swap (a b : Str) : clCmp b a = (clCmp a b).swap :=
  lexCmp_swap chCmp chCmp_swap a b

theorem cllCmp_eq_iff (a b : List Str) : cllCmp a b = .eq ↔ a = b :=
  lexCmp_eq_iff clCmp clCmp_eq_iff a b

theorem cllCmp_swap (a b : List Str) : cllCmp b a = (cllCmp a b).swap :=
  lexCmp_swap clCmp clCmp_swap a b

/-- `UsedItemPropertiesGroup`. -/
structure PropsGroup where
  vis : Option Vis
  docs : DocsList
deriving DecidableEq

def emptyProps : PropsGroup := ⟨none, []⟩

/-- `UsedItemPropertiesGroup::merge`. -/
def PropsGroup.mergeProps (g : PropsGroup) (vis : Option Vis)
    (docs : DocsList) : PropsGroup :=
  ⟨mergeVisibilities g.vis vis, docsCombine g.docs docs⟩

/-- One `UseItem`'s properties as seen by `add_properties`. -/
structure PropsItem where
  configs : List Str
  vis : Option Vis
  docs : DocsList
deriving DecidableEq

/-- The per-path `BTreeMap<&ConfigsList, UsedItemPropertiesGroup>`, as a
key-sorted association list. -/
abbrev PMap := List (List Str × PropsGroup)

/-- `BTreeMap::get`. -/
def pmapGet (k : List Str) (m : PMap) : Option PropsGroup :=
  (m.find? (fun e => e.1 == k)).map Prod.snd

/-- `BTreeMap::get_mut` followed by an in-place update. -/
def pmapUpdate (k : List Str) (f : PropsGroup → PropsGroup) (m : PMap) :
    PMap :=
  m.map (fun e => if e.1 == k then (e.1, f e.2) else e)

/-- `BTreeMap::entry(k).or_insert_with(default)` followed by an update:
sorted insertion that merges into an existing entry. -/
def pmapUpsert (k : List Str) (f : Option PropsGroup → PropsGroup) :
    PMap → PMap
  | [] => [(k, f none)]
  | (k0, g0) :: rest =>
      match cllCmp k k0 with
      | .lt => (k, f none) :: (k0, g0) :: rest
      | .eq => (k0, f (some g0)) :: rest
      | .gt => (k0, g0) :: pmapUpsert k f rest

/-- `add_properties`: merge into the unconditional group when it exists;
when an unconditional item arrives, merge every group (in key order) into a
fresh unconditional group and drop the rest; otherwise merge into the item's
own config group. -/
def addProperties (m : PMap) (it : PropsItem) : PMap :=
  match pmapGet [] m with
  | some _ => pmapUpdate [] (fun g => g.mergeProps it.vis it.docs) m
  | none =>
      if it.configs.isEmpty then
        [([], (m.foldl (fun acc e => acc.mergeProps e.2.vis e.2.docs)
            emptyProps).mergeProps it.vis it.docs)]
      else
        pmapUpsert it.configs
          (fun g => (g.getD emptyProps).mergeProps it.vis it.docs) m

/-- Folding a sequence of insertions for one path, as `add_tree` does. -/
def addPropsFold (items : List PropsItem) : PMap :=
  items.foldl addProperties []

/-- The properties that config normalization leaves on the single
unconditional entry: every group accumulated before the first unconditional
item (in key order), then that item, then every later item in arrival
order — each merged with `UsedItemPropertiesGroup::merge`. -/
def mergedAllProps (pre : List PropsItem) (k : PropsItem)
    (post : List PropsItem) : PropsGroup :=
  post.foldl (fun g it => g.mergeProps it.vis it.docs)
    (((addPropsFold pre).foldl
        (fun acc e => acc.mergeProps e.2.vis e.2.docs)
        emptyProps).mergeProps k.vis k.docs)

theorem pmapUpsert_keys (k : List Str) (f : Option PropsGroup → PropsGroup) :
    ∀ (m : PMap), ∀ e ∈ pmapUpsert k f m, e.1 = k ∨ e.1 ∈ m.map Prod.fst
  | [], e, he => by
      rw [pmapUpsert] at he
      rw [List.mem_singleton.mp he]
      exact Or.inl rfl
  | (k0, g0) :: rest, e, he => by
      rw [pmapUpsert] at he
      rcases hcmp : cllCmp k k0 with _ | _ | _ <;> rw [hcmp] at he <;>
        simp only [List.mem_cons] at he
      · rcases he with rfl | rfl | he
        · exact Or.inl rfl
        · exact Or.inr (by rw [List.map_cons]; exact List.mem_cons_self _ _)
        · right
          simp only [List.map_cons, List.mem_cons]
          exact Or.inr (List.mem_map_of_mem Prod.fst he)
      · rcases he with rfl | he
        · exact Or.inr (by rw [List.map_cons]; exact List.mem_cons_self _ _)
        · right
          simp only [List.map_cons, List.mem_cons]
          exact Or.inr (List.mem_map_of_mem Prod.fst he)
      · rcases he with rfl | he
        · exact Or.inr (by rw [List.map_cons]; exact List.mem_cons_self _ _)
        · rcases pmapUpsert_keys k f rest e he with h | h
          · exact Or.inl h
          · right
            simp only [List.map_cons, List.mem_cons]
            exact Or.inr h

theorem pmapGet_empty_of_no_empty_key (m : PMap)
    (h : ∀ e ∈ m, e.1 ≠ []) : pmapGet [] m = none := by
  unfold pmapGet
  rw [List.find?_eq_none.mpr]
  · rfl
  · intro e he
    simpa using h e he

theorem addProperties_no_empty_key (m : PMap) (it : PropsItem)
    (hm : ∀ e ∈ m, e.1 ≠ []) (hit : it.configs ≠ []) :
    ∀ e ∈ addProperties m it, e.1 ≠ [] := by
  unfold addProperties
  rw [pmapGet_empty_of_no_empty_key m hm]
  rw [if_neg (by simpa [List.isEmpty_iff] using hit)]
  intro e he
  rcases pmapUpsert_keys it.configs _ m e he with h | h
  · rw [h]; exact hit
  · rcases List.mem_map.mp h with ⟨e0, he0, hfst⟩
    rw [← hfst]
    exact hm e0 he0

theorem foldl_addProperties_no_empty_key (pre : List PropsItem) :
    ∀ (m : PMap), (∀ it ∈ pre, it.configs ≠ []) → (∀ e ∈ m, e.1 ≠ []) →
      ∀ e ∈ pre.foldl addProperties m, e.1 ≠ [] := by
  induction pre with
  | nil => intro m _ hm; exact hm
  | cons it rest ih =>
    intro m h hm
    rw [List.foldl_cons]
    exact ih (addProperties m it) (fun x hx => h x (by simp [hx]))
      (addProperties_no_empty_key m it hm (h it (by simp)))

theorem addPropsFold_no_empty_key (pre : List PropsItem)
    (h : ∀ it ∈ pre, it.configs ≠ []) :
    ∀ e ∈ addPropsFold pre, e.1 ≠ [] :=
  foldl_addProperties_no_empty_key pre [] h (by simp)

theorem foldl_addProperties_singleton (post : List PropsItem) :
    ∀ g : PropsGroup,
      post.foldl addProperties [([], g)] =
        [([], post.foldl (fun g2 it => g2.mergeProps it.vis it.docs) g)] := by
  induction post with
  | nil => intro g; rfl
  | cons it rest ih =>
    intro g
    rw [List.foldl_cons, List.foldl_cons]
    have hstep : addProperties [([], g)] it =
        [([], g.mergeProps it.vis it.docs)] := by
      unfold addProperties
      rfl
    rw [hstep, ih]

/-- **C6.**  For any insertion sequence for one flattened path in which some
item is unconditional (empty config set), the final per-path map holds
exactly one entry, keyed by the empty config set — so no conditional entry
coexists with the unconditional one — and its properties are the merge of
the properties of every inserted item (groups accumulated before the first
unconditional item in key order, then the remaining items in arrival
order). -/
theorem c6_config_normalization (pre : List PropsItem) (k : PropsItem)
    (post : List PropsItem)
    (hpre : ∀ it ∈ pre, it.configs ≠ []) (hk : k.configs = []) :
    addPropsFold (pre ++ k :: post) = [([], mergedAllProps pre k post)] := by
  unfold addPropsFold
  rw [List.foldl_append, List.foldl_cons]
  have hm : ∀ e ∈ addPropsFold pre, e.1 ≠ [] :=
    addPropsFold_no_empty_key pre hpre
  have hstep : addProperties (addPropsFold pre) k =
      [([], ((addPropsFold pre).foldl
          (fun acc e => acc.mergeProps e.2.vis e.2.docs)
          emptyProps).mergeProps k.vis k.docs)] := by
    unfold addProperties
    rw [pmapGet_empty_of_no_empty_key _ hm,
      if_pos (by simp [List.isEmpty_iff, hk])]
  unfold addPropsFold at hstep
  rw [hstep, foldl_addProperties_singleton]
  rfl

def c6Pre : List PropsItem :=
  [⟨["unix".toList], some Vis.crate, ["da".toList]⟩]

def c6K : PropsItem := ⟨[], none, []⟩

def c6Post : List PropsItem :=
  [⟨["windows".toList], some Vis.pub, []⟩]

/-- Witness for `c6_config_normalization` at a concrete sequence:
a conditional item, then an unconditional one, then another conditional
one — the map collapses to a single unconditional entry merging all three. -/
theorem c6_config_normalization_witness :
    (∀ it ∈ c6Pre, it.configs ≠ []) ∧ c6K.configs = [] ∧
    addPropsFold (c6Pre ++ c6K :: c6Post) =
      [([], mergedAllProps c6Pre c6K c6Post)] :=
  ⟨by decide, rfl, c6_config_normalization c6Pre c6K c6Post (by decide) rfl⟩

/-! ## The printable forest (`printable.rs`)

`PrintableUseItems` is a `BTreeMap<PrintableKey, PrintableChild>` whose
`Ord` is the sort key (locality, configs, rootedness, root identifier);
we model it as a key-sorted association list.  `flattened.rs` and
`printable.rs` disagree on the shape of `UsedItemLeaf` (the repo is
mid-refactor); we use one leaf type covering both:
`wildcard`, `plain name used`, `plain name (renamed r)`. -/

/-- `printable::NameUse` (derived `Ord`: `Used < Renamed`). -/
inductive NameUseM where
  | used
  | renamed (r : Str)
deriving DecidableEq

def nuCmp : NameUseM → NameUseM → Ordering
  | .used, .used => .eq
  | .used, .renamed _ => .lt
  | .renamed _, .used => .gt
  | .renamed a, .renamed b => clCmp a b

/-- `BTreeSet<NameUse>` insertion, for `this_usage`. -/
def nuInsert (u : NameUseM) : List NameUseM → List NameUseM
  | [] => [u]
  | v :: rest =>
      match nuCmp u v with
      | .lt => u :: v :: rest
      | .eq => v :: rest
      | .gt => v :: nuInsert u rest

/-- `common::Rooted` (derived `Ord`: `Rooted < Unrooted`). -/
inductive RootedM where
  | rooted
  | unrooted
deriving DecidableEq

def rootedRank : RootedM → Nat
  | .rooted => 0
  | .unrooted => 1

/-- `flattened::UsedItemLeaf`. -/
inductive UsedItemLeafM where
  | wildcard
  | plain (name : Str) (use_ : NameUseM)
deriving DecidableEq

/-- `flattened::SingleUsedItem`. -/
structure SingleUsedItemM where
  rooted : RootedM
  path : List Str
  leaf : UsedItemLeafM
deriving DecidableEq

mutual
/-- `printable::PrintableChild`. -/
inductive PrintableChild where
  | plain (u : NameUseM)
  | subtree (t : PrintableTree)

/-- `printable::PrintableTree`: `self` usages, a wildcard flag, and a
key-sorted children map. -/
inductive PrintableTree where
  | mk (thisUsage : List NameUseM) (wildcard : Bool)
      (children : List (Str × PrintableChild))
end

def PrintableTree.thisUsage : PrintableTree → List NameUseM
  | .mk t _ _ => t

def PrintableTree.wildcard : PrintableTree → Bool
  | .mk _ w _ => w

def PrintableTree.children : PrintableTree → List (Str × PrintableChild)
  | .mk _ _ c => c

/-- `PrintableChild::become_subtree`: a plain usage is lifted into a subtree
holding it as a `self` usage. -/
def PrintableChild.becomeSubtree : PrintableChild → PrintableTree
  | .subtree t => t
  | .plain u => .mk [u] false []

/-- `PrintableChild::add_usage`. -/
def PrintableChild.addUsage : PrintableChild → NameUseM → PrintableChild
  | .plain cu, u =>
      if cu = u then .plain cu
      else .subtree (.mk (nuInsert u [cu]) false [])
  | .subtree (.mk th w ch), u => .subtree (.mk (nuInsert u th) w ch)

/-- `BTreeMap<&Ident, PrintableChild>` entry insertion/update (the existing
key is kept when the comparison says equal, as `BTreeMap::entry` does). -/
def childUpsert (k : Str) (f : Option PrintableChild → PrintableChild) :
    List (Str × PrintableChild) → List (Str × PrintableChild)
  | [] => [(k, f none)]
  | (k0, c0) :: rest =>
      match clCmp k k0 with
      | .lt => (k, f none) :: (k0, c0) :: rest
      | .eq => (k0, f (some c0)) :: rest
      | .gt => (k0, c0) :: childUpsert k f rest

/-- `PrintableTree::add_path`. -/
def PrintableTree.addPath (t : PrintableTree) (path : List Str)
    (leaf : UsedItemLeafM) : PrintableTree :=
  match path with
  | head :: rest =>
      .mk t.thisUsage t.wildcard
        (childUpsert head
          (fun c0 => .subtree
            (((c0.getD (.subtree (.mk [] false []))).becomeSubtree).addPath
              rest leaf))
          t.children)
  | [] =>
      match leaf with
      | .wildcard => .mk t.thisUsage true t.children
      | .plain name u =>
          .mk t.thisUsage t.wildcard
            (childUpsert name
              (fun c0 =>
                match c0 with
                | none => .plain u
                | some c => c.addUsage u)
              t.children)

/-- `PrintableTree::new_from_path`. -/
def PrintableTree.newFromPath (path : List Str) (leaf : UsedItemLeafM) :
    PrintableTree :=
  PrintableTree.addPath (.mk [] false []) path leaf

/-- `printable::PrintableKey`. -/
structure PrintableKey where
  configs : List Str
  docs : DocsList
  vis : Option Vis
  rooted : RootedM
  rootIdent : Str
deriving DecidableEq

/-- `CrateLocalityKey` rank, computed as `PrintableKey::sort_key` does:
`{std, alloc, core}` < dependency < `crate` < `super` < `self`. -/
def localityRank (ident : Str) : Nat :=
  if ident = "std".toList ∨ ident = "alloc".toList ∨ ident = "core".toList
    then 0
  else if ident = "self".toList then 4
  else if ident = "super".toList then 3
  else if ident = "crate".toList then 2
  else 1

/-- `Ordering::then` (the derived lexicographic `Ord` of `UseItemSortKey`). -/
def oThen : Ordering → Ordering → Ordering
  | .eq, o => o
  | o, _ => o

/-- The derived lexicographic order on `UseItemSortKey`
(locality, configs, rooted, identifier), which is `Ord for PrintableKey`. -/
def keyCmp (a b : PrintableKey) : Ordering :=
  oThen (compare (localityRank a.rootIdent) (localityRank b.rootIdent))
    (oThen (cllCmp a.configs b.configs)
      (oThen (compare (rootedRank a.rooted) (rootedRank b.rooted))
        (clCmp a.rootIdent b.rootIdent)))

/-- `BTreeMap<PrintableKey, PrintableChild>` entry insertion/update. -/
def itemsUpsert (k : PrintableKey)
    (f : Option PrintableChild → PrintableChild) :
    List (PrintableKey × PrintableChild) → List (PrintableKey × PrintableChild)
  | [] => [(k, f none)]
  | (k0, c0) :: rest =>
      match keyCmp k k0 with
      | .lt => (k, f none) :: (k0, c0) :: rest
      | .eq => (k0, f (some c0)) :: rest
      | .gt => (k0, c0) :: itemsUpsert k f rest

/-- `PrintableUseItems::add_single_used_item`.  `none` models the
`panic!("can't add a wildcard import at the root level")` branch. -/
def addSingleUsedItem (m : List (PrintableKey × PrintableChild))
    (docs : DocsList) (configs : List Str) (vis : Option Vis)
    (item : SingleUsedItemM) :
    Option (List (PrintableKey × PrintableChild)) :=
  match item.path with
  | ident :: rest =>
      some (itemsUpsert ⟨configs, docs, vis, item.rooted, ident⟩
        (fun c0 =>
          match c0 with
          | none => .subtree (PrintableTree.newFromPath rest item.leaf)
          | some c => .subtree ((c.becomeSubtree).addPath rest item.leaf))
        m)
  | [] =>
      match item.leaf with
      | .wildcard => none
      | .plain name u =>
          some (itemsUpsert ⟨configs, docs, vis, item.rooted, name⟩
            (fun c0 =>
              match c0 with
              | none => .plain u
              | some c => c.addUsage u)
            m)

/-- `PrintableUseItems::build_from_use_items`. -/
def buildFromUseItems
    (items : List (DocsList × List Str × Option Vis × SingleUsedItemM)) :
    Option (List (PrintableKey × PrintableChild)) :=
  items.foldl
    (fun acc i => acc.bind (fun m => addSingleUsedItem m i.1 i.2.1 i.2.2.1 i.2.2.2))
    (some [])

/-- `UseItemSortKey::is_spaced_from`: blank line when the locality differs
or when exactly one of the two declarations has configs. -/
def isSpacedFrom (cur prev : PrintableKey) : Bool :=
  (localityRank cur.rootIdent != localityRank prev.rootIdent) ||
  (cur.configs.isEmpty != prev.configs.isEmpty)

/-- One piece of the rendered output of `PrintableUseItems::fmt`: a use
declaration (with its key and tree) or a separating blank line. -/
inductive Segment where
  | decl (k : PrintableKey) (c : PrintableChild)
  | blank

/-- The tail loop of `PrintableUseItems::fmt`: each subsequent item is
preceded by a blank line when spaced from the previous sort key. -/
def fmtSegmentsGo (prev : PrintableKey) :
    List (PrintableKey × PrintableChild) → List Segment
  | [] => []
  | (k, c) :: rest =>
      if isSpacedFrom k prev then
        Segment.blank :: Segment.decl k c :: fmtSegmentsGo k rest
      else Segment.decl k c :: fmtSegmentsGo k rest

/-- `PrintableUseItems::fmt`, at the granularity of declarations and blank
lines. -/
def fmtSegments : List (PrintableKey × PrintableChild) → List Segment
  | [] => []
  | (k, c) :: rest => Segment.decl k c :: fmtSegmentsGo k rest

/-! ### C9 : sort order and blank-line discipline -/

/-- The claim's lexicographic sort key, written out: locality first
(`{std, alloc, core} < dependency < crate < super < self`), then the
condition set (the empty, unconditional set least), then rooted before
unrooted, then the root identifier name. -/
def keyLtSpec (a b : PrintableKey) : Prop :=
  localityRank a.rootIdent < localityRank b.rootIdent ∨
    (localityRank a.rootIdent = localityRank b.rootIdent ∧
      (cllCmp a.configs b.configs = .lt ∨
        (a.configs = b.configs ∧
          (rootedRank a.rooted < rootedRank b.rooted ∨
            (a.rooted = b.rooted ∧ clCmp a.rootIdent b.rootIdent = .lt)))))

theorem rootedRank_inj (a b : RootedM) :
    rootedRank a = rootedRank b ↔ a = b := by
  cases a <;> cases b <;> simp [rootedRank]

theorem oThen_eq_lt (o1 o2 : Ordering) :
    oThen o1 o2 = .lt ↔ (o1 = .lt ∨ (o1 = .eq ∧ o2 = .lt)) := by
  cases o1 <;> simp [oThen]

theorem oThen_swap (o1 o2 : Ordering) :
    oThen o1.swap o2.swap = (oThen o1 o2).swap := by
  cases o1 <;> rfl

theorem keyCmp_swap (a b : PrintableKey) : keyCmp b a = (keyCmp a b).swap := by
  unfold keyCmp
  rw [← oThen_swap, ← oThen_swap, ← oThen_swap, Nat.compare_swap,
    Nat.compare_swap, ← cllCmp_swap, ← clCmp_swap]

theorem keyCmp_lt_iff (a b : PrintableKey) :
    keyCmp a b = .lt ↔ keyLtSpec a b := by
  unfold keyCmp keyLtSpec
  rw [oThen_eq_lt, oThen_eq_lt, oThen_eq_lt, Nat.compare_eq_lt,
    Nat.compare_eq_eq, Nat.compare_eq_lt, Nat.compare_eq_eq, rootedRank_inj,
    cllCmp_eq_iff]

theorem keyCmp_gt_iff (a b : PrintableKey) :
    keyCmp a b = .gt ↔ keyCmp b a = .lt := by
  rw [keyCmp_swap b a]
  rcases hba : keyCmp b a with _ | _ | _ <;> decide

/-- The keys of a printable map, in storage order. -/
def mapKeys (m : List (PrintableKey × PrintableChild)) : List PrintableKey :=
  m.map Prod.fst

/-- The key order `keyCmp · · = .lt`, as a relation. -/
def keyLtRel (a b : PrintableKey) : Prop := keyCmp a b = .lt

theorem itemsUpsert_head (k : PrintableKey)
    (f : Option PrintableChild → PrintableChild) :
    ∀ (m : List (PrintableKey × PrintableChild)),
      ∀ h ∈ (mapKeys (itemsUpsert k f m)).head?,
        h = k ∨ (mapKeys m).head? = some h
  | [], h, hh => by
      rw [itemsUpsert] at hh
      simp [mapKeys] at hh
      exact Or.inl hh.symm
  | (k0, c0) :: rest, h, hh => by
      rw [itemsUpsert] at hh
      rcases hcmp : keyCmp k k0 with _ | _ | _ <;> rw [hcmp] at hh <;>
        simp only [mapKeys, List.map_cons, List.head?_cons,
          Option.mem_def, Option.some.injEq] at hh
      · exact Or.inl hh.symm
      · exact Or.inr (by simp [mapKeys, hh])
      · exact Or.inr (by simp [mapKeys, hh])

theorem itemsUpsert_sorted (k : PrintableKey)
    (f : Option PrintableChild → PrintableChild) :
    ∀ (m : List (PrintableKey × PrintableChild)),
      List.Chain' keyLtRel (mapKeys m) →
      List.Chain' keyLtRel (mapKeys (itemsUpsert k f m))
  | [], _ => by simp [itemsUpsert, mapKeys]
  | (k0, c0) :: rest, hch => by
      rw [itemsUpsert]
      rcases hcmp : keyCmp k k0 with _ | _ | _
      · simp only [mapKeys, List.map_cons] at hch ⊢
        exact List.Chain'.cons hcmp hch
      · simpa [mapKeys] using hch
      · simp only [mapKeys, List.map_cons] at hch ⊢
        rw [List.chain'_cons'] at hch ⊢
        refine ⟨?_, itemsUpsert_sorted k f rest hch.2⟩
        intro h hh
        rcases itemsUpsert_head k f rest h hh with heq | hh2
        · rw [heq]
          exact (keyCmp_gt_iff k k0).mp hcmp
        · exact hch.1 h hh2

theorem addSingleUsedItem_sorted (m m2 : List (PrintableKey × PrintableChild))
    (docs : DocsList) (configs : List Str) (vis : Option Vis)
    (item : SingleUsedItemM)
    (h : addSingleUsedItem m docs configs vis item = some m2)
    (hs : List.Chain' keyLtRel (mapKeys m)) :
    List.Chain' keyLtRel (mapKeys m2) := by
  obtain ⟨rt, path, leaf⟩ := item
  cases path with
  | cons id rest =>
    rw [addSingleUsedItem] at h
    simp only [Option.some.injEq] at h
    rw [← h]
    exact itemsUpsert_sorted _ _ m hs
  | nil =>
    cases leaf with
    | wildcard =>
      rw [addSingleUsedItem] at h
      exact Option.noConfusion h
    | plain name u =>
      rw [addSingleUsedItem] at h
      simp only [Option.some.injEq] at h
      rw [← h]
      exact itemsUpsert_sorted _ _ m hs

theorem foldl_addSingle_sorted
    (items : List (DocsList × List Str × Option Vis × SingleUsedItemM)) :
    ∀ (acc : Option (List (PrintableKey × PrintableChild))),
      (∀ m0, acc = some m0 → List.Chain' keyLtRel (mapKeys m0)) →
      ∀ m, items.foldl
          (fun acc2 i =>
            acc2.bind (fun m3 => addSingleUsedItem m3 i.1 i.2.1 i.2.2.1 i.2.2.2))
          acc = some m →
        List.Chain' keyLtRel (mapKeys m) := by
  induction items with
  | nil =>
    intro acc hacc m hm
    exact hacc m hm
  | cons i rest ih =>
    intro acc hacc m hm
    rw [List.foldl_cons] at hm
    refine ih _ ?_ m hm
    intro m0 hm0
    cases acc with
    | none => exact Option.noConfusion hm0
    | some m1 =>
      exact addSingleUsedItem_sorted m1 m0 i.1 i.2.1 i.2.2.1 i.2.2.2 hm0
        (hacc m1 rfl)

theorem buildFromUseItems_sorted
    (items : List (DocsList × List Str × Option Vis × SingleUsedItemM))
    (m : List (PrintableKey × PrintableChild))
    (hm : buildFromUseItems items = some m) :
    List.Chain' keyLtRel (mapKeys m) := by
  refine foldl_addSingle_sorted items (some []) ?_ m hm
  intro m0 hm0
  simp only [Option.some.injEq] at hm0
  rw [← hm0]
  simp [mapKeys]

/-- The claim's blank-line condition between two successive declarations:
their keys differ in locality or in whether they have conditions. -/
def spacedProp (a b : PrintableKey) : Prop :=
  localityRank a.rootIdent ≠ localityRank b.rootIdent ∨
    ¬ (a.configs = [] ↔ b.configs = [])

theorem isSpacedFrom_iff (cur prev : PrintableKey) :
    isSpacedFrom cur prev = true ↔ spacedProp prev cur := by
  unfold isSpacedFrom spacedProp
  rw [Bool.or_eq_true, bne_iff_ne, bne_iff_ne]
  by_cases hc : cur.configs = [] <;> by_cases hp : prev.configs = []
  · simp [hc, hp, ne_comm]
  · have h2 : prev.configs.isEmpty = false := by
      rw [← Bool.not_eq_true, List.isEmpty_iff]; exact hp
    simp [hc, hp, h2, ne_comm]
  · have h1 : cur.configs.isEmpty = false := by
      rw [← Bool.not_eq_true, List.isEmpty_iff]; exact hc
    simp [hc, hp, h1, ne_comm]
  · have h1 : cur.configs.isEmpty = false := by
      rw [← Bool.not_eq_true, List.isEmpty_iff]; exact hc
    have h2 : prev.configs.isEmpty = false := by
      rw [← Bool.not_eq_true, List.isEmpty_iff]; exact hp
    simp [hc, hp, h1, h2, ne_comm]

/-- Blank lines appear between two successive declarations exactly when the
spacing condition holds, and nowhere else (not at the start, never doubled,
not at the end).  `prev` is the key of the declaration already emitted. -/
def blanksOk : Option PrintableKey → List Segment → Prop
  | _, [] => True
  | none, .decl k _ :: rest => blanksOk (some k) rest
  | none, .blank :: _ => False
  | some p, .decl k _ :: rest => ¬ spacedProp p k ∧ blanksOk (some k) rest
  | some p, .blank :: .decl k _ :: rest => spacedProp p k ∧ blanksOk (some k) rest
  | some _, .blank :: .blank :: _ => False
  | some _, [.blank] => False

theorem fmtSegmentsGo_blanksOk :
    ∀ (l : List (PrintableKey × PrintableChild)) (prev : PrintableKey),
      blanksOk (some prev) (fmtSegmentsGo prev l)
  | [], _ => trivial
  | (k, c) :: rest, prev => by
      rw [fmtSegmentsGo]
      by_cases hs : isSpacedFrom k prev = true
      · rw [if_pos hs]
        exact ⟨(isSpacedFrom_iff k prev).mp hs, fmtSegmentsGo_blanksOk rest k⟩
      · rw [if_neg hs]
        exact ⟨fun hsp => hs ((isSpacedFrom_iff k prev).mpr hsp),
          fmtSegmentsGo_blanksOk rest k⟩

/-- **C9.**  For any built `PrintableUseItems`, the rendered declarations
appear in strictly ascending order of the lexicographic key (locality with
`{std, alloc, core} < dependency < crate < super < self`, then condition-set
with unconditional first, then rooted before unrooted, then root identifier
name), and a blank line separates two successive declarations exactly when
they differ in locality or in whether they have conditions. -/
theorem c9_sort_and_spacing
    (items : List (DocsList × List Str × Option Vis × SingleUsedItemM))
    (m : List (PrintableKey × PrintableChild))
    (hm : buildFromUseItems items = some m) :
    List.Chain' keyLtSpec (mapKeys m) ∧ blanksOk none (fmtSegments m) := by
  constructor
  · exact List.Chain'.imp (fun a b h => (keyCmp_lt_iff a b).mp h)
      (buildFromUseItems_sorted items m hm)
  · cases m with
    | nil => trivial
    | cons e rest =>
      obtain ⟨k, c⟩ := e
      exact fmtSegmentsGo_blanksOk rest k

def c9Items : List (DocsList × List Str × Option Vis × SingleUsedItemM) :=
  [([], [], none,
    ⟨RootedM.unrooted, ["std".toList], UsedItemLeafM.plain "io".toList NameUseM.used⟩),
   ([], [], none,
    ⟨RootedM.unrooted, ["my_crate".toList], UsedItemLeafM.plain "x".toList NameUseM.used⟩)]

def c9M : List (PrintableKey × PrintableChild) :=
  (buildFromUseItems c9Items).getD []

/-- Witness for `c9_sort_and_spacing`: `use std::io;` and `use my_crate::x;`
build two declarations, sorted with `std` first and separated by a blank
line (their localities differ). -/
theorem c9_sort_and_spacing_witness :
    buildFromUseItems c9Items = some c9M ∧
    List.Chain' keyLtSpec (mapKeys c9M) ∧ blanksOk none (fmtSegments c9M) :=
  ⟨rfl, c9_sort_and_spacing c9Items c9M rfl⟩

/-! ### C10 : the root-level-wildcard panic is unreachable from `add_tree`

`PrintableUseItems::add_single_used_item` panics exactly on a
`SingleUsedItem` with an empty path and a `Wildcard` leaf.
`NormalizedUsedItems::add_branches` always builds the wildcard entry's path
as the whole prefix chain — which contains at least the tree root's
identifier — so the panic branch can never fire on items it produces. -/

/-- `tree::Branches`. -/
inductive BranchesM where
  | mk (used : List NameUseM) (wildcard : Bool)
      (children : List (Str × BranchesM))

mutual
/-- `NormalizedUsedItems::add_branches`, collecting the `SingleUsedItem`s it
inserts.  The prefix chain is `front ++ [last_]` (never empty: it starts at
the tree root). -/
def addBranchesItems (rt : RootedM) (front : List Str) (last_ : Str) :
    BranchesM → List SingleUsedItemM
  | .mk used wc children =>
      (if wc then [⟨rt, front ++ [last_], .wildcard⟩] else []) ++
      used.map (fun u => ⟨rt, front, .plain last_ u⟩) ++
      addChildrenItems rt (front ++ [last_]) children

/-- The children loop of `add_branches`. -/
def addChildrenItems (rt : RootedM) (pfx : List Str) :
    List (Str × BranchesM) → List SingleUsedItemM
  | [] => []
  | (c, sub) :: rest =>
      addBranchesItems rt pfx c sub ++ addChildrenItems rt pfx rest
end

/-- `NormalizedUsedItems::add_tree`: every root's branches are added with a
one-element prefix chain. -/
def addTreeItems : List ((RootedM × Str) × BranchesM) → List SingleUsedItemM
  | [] => []
  | ((r, id), b) :: rest => addBranchesItems r [] id b ++ addTreeItems rest

mutual
theorem addBranchesItems_wildcard_path :
    ∀ (b : BranchesM) (rt : RootedM) (front : List Str) (last_ : Str),
      ∀ item ∈ addBranchesItems rt front last_ b,
        item.leaf = .wildcard → item.path ≠ []
  | .mk used wc children, rt, front, last_, item, hmem, hleaf => by
      rw [addBranchesItems] at hmem
      simp only [List.mem_append] at hmem
      rcases hmem with (h | h) | h
      · by_cases hwc : wc = true
        · rw [if_pos hwc] at h
          rw [List.mem_singleton.mp h]
          simp
        · rw [if_neg hwc] at h
          exact absurd h (List.not_mem_nil item)
      · rcases List.mem_map.mp h with ⟨u, _, hitem⟩
        rw [← hitem] at hleaf
        exact absurd hleaf (by simp)
      · exact addChildrenItems_wildcard_path children rt (front ++ [last_])
          item h hleaf

theorem addChildrenItems_wildcard_path :
    ∀ (cs : List (Str × BranchesM)) (rt : RootedM) (pfx : List Str),
      ∀ item ∈ addChildrenItems rt pfx cs,
        item.leaf = .wildcard → item.path ≠ []
  | [], _, _, item, hmem, _ => absurd hmem (List.not_mem_nil item)
  | (c, sub) :: rest, rt, pfx, item, hmem, hleaf => by
      rw [addChildrenItems] at hmem
      rcases List.mem_append.mp hmem with h | h
      · exact addBranchesItems_wildcard_path sub rt pfx c item h hleaf
      · exact addChildrenItems_wildcard_path rest rt pfx item h hleaf
end

theorem addTreeItems_wildcard_path :
    ∀ (roots : List ((RootedM × Str) × BranchesM)),
      ∀ item ∈ addTreeItems roots, item.leaf = .wildcard → item.path ≠ []
  | [], item, hmem, _ => absurd hmem (List.not_mem_nil item)
  | ((r, id), b) :: rest, item, hmem, hleaf => by
      rw [addTreeItems] at hmem
      rcases List.mem_append.mp hmem with h | h
      · exact addBranchesItems_wildcard_path b r [] id item h hleaf
      · exact addTreeItems_wildcard_path rest item h hleaf

/-- **C10.**  `add_single_used_item` panics if and only if it is handed a
`SingleUsedItem` with an empty path and a `Wildcard` leaf; and every
`SingleUsedItem` produced by `add_tree` with a `Wildcard` leaf carries a
non-empty path (it includes at least the root identifier), so the panic is
unreachable for pipeline-produced items. -/
theorem c10_root_wildcard_panic :
    (∀ (m : List (PrintableKey × PrintableChild)) (docs : DocsList)
        (configs : List Str) (vis : Option Vis) (item : SingleUsedItemM),
      addSingleUsedItem m docs configs vis item = none ↔
        (item.path = [] ∧ item.leaf = .wildcard)) ∧
    (∀ (roots : List ((RootedM × Str) × BranchesM)),
      ∀ item ∈ addTreeItems roots, item.leaf = .wildcard → item.path ≠ []) := by
  constructor
  · intro m docs configs vis item
    obtain ⟨rt, path, leaf⟩ := item
    cases path with
    | cons id rest =>
      rw [addSingleUsedItem]
      simp
    | nil =>
      cases leaf with
      | wildcard =>
        rw [addSingleUsedItem]
        simp
      | plain name u =>
        rw [addSingleUsedItem]
        simp
  · exact addTreeItems_wildcard_path

def c10Roots : List ((RootedM × Str) × BranchesM) :=
  [((RootedM.unrooted, "a".toList), BranchesM.mk [] true [])]

def c10Item : SingleUsedItemM :=
  ⟨RootedM.unrooted, ["a".toList], UsedItemLeafM.wildcard⟩

/-- Witness for `c10_root_wildcard_panic`: a root-level wildcard item makes
`add_single_used_item` panic, and the wildcard item `add_tree` produces for
`use a::*` has the non-empty path `["a"]`. -/
theorem c10_root_wildcard_panic_witness :
    addSingleUsedItem [] [] [] none
      ⟨RootedM.unrooted, [], UsedItemLeafM.wildcard⟩ = none ∧
    c10Item ∈ addTreeItems c10Roots ∧ c10Item.path ≠ [] :=
  ⟨(c10_root_wildcard_panic.1 [] [] [] none _).mpr ⟨rfl, rfl⟩,
   by rw [show addTreeItems c10Roots = [c10Item] from rfl]
      exact List.mem_singleton.mpr rfl,
   c10_root_wildcard_panic.2 c10Roots c10Item
     (by rw [show addTreeItems c10Roots = [c10Item] from rfl]
         exact List.mem_singleton.mpr rfl) rfl⟩

end Usefix
